import Mathlib

/-
Shallow embedding of the core of `STFT_Spectrogram.py` (guitar-feedback
simulation): the `guitar` resonator (comb filter cascaded with a fixed
lowpass filter), the `amplify` hard clipper, the `feedback` delay channel,
and the per-sample closed-loop driver.

Modelling conventions:
* Python floats are modelled as exact rationals (ℚ); float rounding is not
  modelled, which is the standard shallow-embedding choice here.
* Python exceptions raised by the numeric code (ZeroDivisionError from `/`
  and `%` by zero, ValueError from `np.zeros` on a negative size and from
  `scipy.signal.butter` on an out-of-range cutoff, IndexError from indexing
  a numpy array out of bounds) are modelled with `Except PyErr`.
* `scipy.signal.butter(6, min(0.5, 5*pitch/fs))` is a library call whose
  coefficient values are computed outside this repository (and are
  irrational in exact arithmetic); the two returned coefficient lists enter
  the embedding as parameters `bc`, `ac` of `guitar.init`.  The repo-side
  arithmetic on them (the `self.bfb *= 1000` gain, the per-sample
  `signal.lfilter` state update, the zero `lfiltic` initial conditions) is
  modelled.
* `feedback.get` in the source reads the module-global sample rate `fs`
  (set from the wav file), not the constructor argument; the embedding
  makes that explicit by giving `get`/`push` a separate `fsG` argument.
* `x / float(distance)` in `feedback.get` divides a numpy scalar, which
  does not raise on a zero distance; it is modelled by total ℚ division.
-/

/-- Python exception kinds that the modelled code can raise. -/
inductive PyErr where
  | zeroDivision : PyErr
  | valueError : PyErr
  | indexError : PyErr
deriving DecidableEq

/-- Numpy rounding (`np.round`): round half to even. -/
def npRound (q : ℚ) : ℤ :=
  if Int.fract q < 1/2 then ⌊q⌋
  else if 1/2 < Int.fract q then ⌊q⌋ + 1
  else if 2 ∣ ⌊q⌋ then ⌊q⌋ else ⌊q⌋ + 1

/-- The propagation speed constant of the `feedback` class (343.0 m/s). -/
def SPEED_OF_SOUND : ℚ := 343

/-- Scalar form of `amplify`: clip to the threshold TH = 0.9
(`y[y > TH] = TH; y[y < -TH] = -TH`). -/
def clip1 (x : ℚ) : ℚ :=
  if x > 9/10 then 9/10 else if x < -(9/10) then -(9/10) else x

/-- The `amplify` function on a sample buffer: a fresh clipped copy.  -/
def amplify (x : List ℚ) : List ℚ := x.map clip1

/-- One sample of `scipy.signal.lfilter(b, a, [t], zi=z)` in transposed
direct form II, with the `a[0]` normalisation scipy performs.  The claims
never depend on the concrete filter values; this threads state faithfully. -/
def lfilterStep (b a z : List ℚ) (x : ℚ) : ℚ × List ℚ :=
  let a0 := a.getD 0 0
  let y := (b.getD 0 0 * x + z.getD 0 0) / a0
  (y, (List.range 6).map
    (fun i => b.getD (i+1) 0 / a0 * x + z.getD (i+1) 0 - a.getD (i+1) 0 / a0 * y))

/-- State of the `guitar` class (lines 183-197 of the source). -/
structure guitar where
  M : ℕ
  R : ℚ
  RM : ℚ
  ybuf : List ℚ
  iy : ℕ
  xbuf : ℚ
  bfb : List ℚ
  bfa : List ℚ
  bfs : List ℚ
deriving DecidableEq

/-- The comb-stage value `t = x[n] - R*xbuf + RM*ybuf[iy]` computed by one
iteration of `guitar.play` (line 203). -/
def guitar.stepT (g : guitar) (xn : ℚ) : ℚ :=
  xn - g.R * g.xbuf + g.RM * g.ybuf.getD g.iy 0

/-- One loop iteration of `guitar.play` (lines 201-208): comb stage, store
`t` in the circular buffer, advance the write index mod M, remember the
input, then the lowpass stage carrying its state. -/
def guitar.processSample (g : guitar) (xn : ℚ) : ℚ × guitar :=
  let t := g.stepT xn
  let p := lfilterStep g.bfb g.bfa g.bfs t
  (p.1, { g with ybuf := g.ybuf.set g.iy t,
                 iy := (g.iy + 1) % g.M,
                 xbuf := xn,
                 bfs := p.2 })

/-- One iteration of `guitar.play` with the Python failure modes:
`self.ybuf[self.iy]` raises IndexError when the index is out of bounds,
and `% self.M` raises ZeroDivisionError when M = 0. -/
def guitar.step (g : guitar) (xn : ℚ) : Except PyErr (ℚ × guitar) :=
  if g.ybuf.length ≤ g.iy then .error .indexError
  else if g.M = 0 then .error .zeroDivision
  else .ok (g.processSample xn)

/-- The `guitar.play` method over an input buffer (lines 199-209). -/
def guitar.play (g : guitar) : List ℚ → Except PyErr (List ℚ × guitar)
  | [] => .ok ([], g)
  | xn :: rest => do
      let p ← g.step xn
      let s ← p.2.play rest
      .ok (p.1 :: s.1, s.2)

/-- The `guitar.__init__` constructor (lines 184-197):
`M = int(np.round(fs / pitch))` (ZeroDivisionError when pitch = 0),
`np.zeros(M)` (ValueError when M < 0), decay R = 0.9999, RM = R^M,
write index 0, zero previous input; then
`signal.butter(6, min(0.5, 5.0*pitch/fs))` (ZeroDivisionError when fs = 0,
ValueError when the cutoff is not positive), the 1000x gain on `bfb`, and
zero `lfiltic` initial conditions.  `bc`/`ac` are the coefficient lists
scipy returns. -/
def guitar.init (pitch fs : ℚ) (bc ac : List ℚ) : Except PyErr guitar :=
  if pitch = 0 then .error .zeroDivision
  else if npRound (fs / pitch) < 0 then .error .valueError
  else if fs = 0 then .error .zeroDivision
  else if min (1/2 : ℚ) (5 * pitch / fs) ≤ 0 then .error .valueError
  else .ok { M := (npRound (fs / pitch)).toNat,
             R := 9999/10000,
             RM := (9999/10000 : ℚ) ^ (npRound (fs / pitch)).toNat,
             ybuf := List.replicate (npRound (fs / pitch)).toNat 0,
             iy := 0,
             xbuf := 0,
             bfb := bc.map (fun c => 1000 * c),
             bfa := ac,
             bfs := List.replicate 6 0 }

/-- State of the `feedback` class (lines 285-291). -/
structure feedback where
  L : ℕ
  xbuf : List ℚ
  ix : ℕ
deriving DecidableEq

/-- The per-call delay in samples computed by `feedback.get` (line 294):
`d = int(np.ceil(distance / SPEED_OF_SOUND * fs))`, where `fs` is the
module-global sample rate, passed here as `fsG`. -/
def delaySamples (fsG dist : ℚ) : ℤ := ⌈dist / SPEED_OF_SOUND * fsG⌉

/-- The read offset of `feedback.get` (line 296):
`(self.L + self.ix - d) % self.L`.  Python's `%` on a positive modulus is
`Int.emod`. -/
def feedback.readIndex (f : feedback) (fsG dist : ℚ) : ℕ :=
  (((f.L : ℤ) + (f.ix : ℤ) - delaySamples fsG dist) % (f.L : ℤ)).toNat

/-- The body of `feedback.get` (lines 293-298) as a total function: write
`x` at the write index, read at the modulo-reduced offset, advance the
write index, attenuate by the reciprocal distance. -/
def feedback.push (f : feedback) (fsG x dist : ℚ) : ℚ × feedback :=
  let buf := f.xbuf.set f.ix x
  let y := buf.getD (f.readIndex fsG dist) 0
  (y / dist, { f with xbuf := buf, ix := (f.ix + 1) % f.L })

/-- The `feedback.get` method with the Python failure modes: IndexError on
an out-of-bounds write or read index, ZeroDivisionError from `% self.L`
when L = 0. -/
def feedback.get (f : feedback) (fsG x dist : ℚ) : Except PyErr (ℚ × feedback) :=
  if f.xbuf.length ≤ f.ix then .error .indexError
  else if f.L = 0 then .error .zeroDivision
  else if f.xbuf.length ≤ f.readIndex fsG dist then .error .indexError
  else .ok (f.push fsG x dist)

/-- The `feedback.__init__` constructor (lines 287-291):
`L = int(np.ceil(max_distance_m / SPEED_OF_SOUND * fs))`, zero-filled
circular buffer of length L (`np.zeros` raises ValueError when L < 0),
write index 0. -/
def feedback.init (maxd fs : ℚ) : Except PyErr feedback :=
  if ⌈maxd / SPEED_OF_SOUND * fs⌉ < 0 then .error .valueError
  else .ok { L := (⌈maxd / SPEED_OF_SOUND * fs⌉).toNat,
             xbuf := List.replicate (⌈maxd / SPEED_OF_SOUND * fs⌉).toNat 0,
             ix := 0 }

/-- A sequence of `feedback.get` calls at a fixed distance, one per input
sample (the impulse-response experiment of the spec). -/
def feedback.getSeq (f : feedback) (fsG dist : ℚ) :
    List ℚ → Except PyErr (List ℚ × feedback)
  | [] => .ok ([], f)
  | xn :: rest => do
      let p ← f.get fsG xn dist
      let s ← p.2.getSeq fsG dist rest
      .ok (p.1 :: s.1, s.2)

/-- The simulation loop of the notebook (lines 324-326), recursing on the
number of remaining iterations `k` with `n` the current sample index:
`y[n] = amplify(g.play(x)); x = [cl * f.get(y[n], sched(n))]`. -/
def simLoop (cl fsG : ℚ) (sched : ℕ → ℚ) :
    ℕ → ℕ → guitar × feedback × ℚ → Except PyErr (List ℚ × (guitar × feedback × ℚ))
  | _, 0, st => .ok ([], st)
  | n, k+1, st => do
      let p ← st.1.play [st.2.2]
      let y := (amplify p.1).getD 0 0
      let q ← st.2.1.get fsG y (sched n)
      let s ← simLoop cl fsG sched (n+1) k (p.2, q.2, cl * q.1)
      .ok (y :: s.1, s.2)

/-- The full run: construct the guitar and the feedback channel, seed the
loop with the excitation `x0` (the `x = [1]` pluck in the source), run N
iterations of the loop, return the output sequence. -/
def runSim (N : ℕ) (x0 pitch fsRes : ℚ) (bc ac : List ℚ)
    (maxd fsFb fsG cl : ℚ) (sched : ℕ → ℚ) : Except PyErr (List ℚ) := do
  let g ← guitar.init pitch fsRes bc ac
  let f ← feedback.init maxd fsFb
  let r ← simLoop cl fsG sched 0 N (g, f, x0)
  .ok r.1

/-- One loop-driver iteration as worded by the spec (section 4.4):
`resonatorOut = Resonator.processSample(feedbackInput)`,
`amped = clip(resonatorOut)`, `output[n] = amped`,
`fed = DelayChannel.push(amped, scheduleFn(n))`,
`feedbackInput' = couplingLoss * fed`.  This is the specification-side
definition that the source loop is proved to refine. -/
def specStep (cl fsG : ℚ) (sched : ℕ → ℚ) (n : ℕ)
    (st : guitar × feedback × ℚ) : ℚ × (guitar × feedback × ℚ) :=
  let r := st.1.processSample st.2.2
  let y := clip1 r.1
  let fed := st.2.1.push fsG y (sched n)
  (y, (r.2, fed.2, cl * fed.1))

/-- Iterating `specStep` from a state `st` whose first iteration has sample
index `n`. -/
def specStateFrom (cl fsG : ℚ) (sched : ℕ → ℚ)
    (st : guitar × feedback × ℚ) (n : ℕ) : ℕ → guitar × feedback × ℚ
  | 0 => st
  | i+1 => (specStep cl fsG sched (n + i) (specStateFrom cl fsG sched st n i)).2

/-- The i-th output sample of the specification-side loop started at
sample index 0. -/
def specOut (cl fsG : ℚ) (sched : ℕ → ℚ) (st : guitar × feedback × ℚ)
    (i : ℕ) : ℚ :=
  (specStep cl fsG sched i (specStateFrom cl fsG sched st 0 i)).1

/-- The guitar state after the first n samples of an input stream have been
processed (one `processSample` per sample). -/
def gTrace (g : guitar) (x : ℕ → ℚ) : ℕ → guitar
  | 0 => g
  | n+1 => ((gTrace g x n).processSample (x n)).2

/-- The comb-stage value produced at sample n of an input stream. -/
def combT (g : guitar) (x : ℕ → ℚ) (n : ℕ) : ℚ :=
  (gTrace g x n).stepT (x n)

/-- The feedback-channel state after the first n pushes of an input stream
at a fixed distance. -/
def fbTrace (f : feedback) (fsG dist : ℚ) (x : ℕ → ℚ) : ℕ → feedback
  | 0 => f
  | n+1 => ((fbTrace f fsG dist x n).push fsG (x n) dist).2

/-- The n-th output of the feedback channel driven at a fixed distance. -/
def fbOut (f : feedback) (fsG dist : ℚ) (x : ℕ → ℚ) (n : ℕ) : ℚ :=
  ((fbTrace f fsG dist x n).push fsG (x n) dist).1

/-- A unit impulse at sample 0 (the pluck excitation). -/
def impulse : ℕ → ℚ := fun n => if n = 0 then 1 else 0

/-- Concrete guitar state used by the witnesses: `guitar.init 12000 24000`
with empty coefficient lists, so M = 2. -/
def gW : guitar :=
  { M := 2, R := 9999/10000, RM := (9999/10000 : ℚ) ^ 2,
    ybuf := [0, 0], iy := 0, xbuf := 0,
    bfb := [], bfa := [], bfs := List.replicate 6 0 }

/-- Concrete feedback state used by the witnesses: `feedback.init (1/100) 24000`,
so L = 1. -/
def fW1 : feedback := { L := 1, xbuf := [0], ix := 0 }

/-- Concrete feedback state used by the C6 witness: `feedback.init 4 343`,
so L = 4. -/
def fW6 : feedback := { L := 4, xbuf := List.replicate 4 0, ix := 0 }

/-- Concrete feedback state used by the C3 witness: `feedback.init 1 24000`,
so L = 70. -/
def fW3 : feedback := { L := 70, xbuf := List.replicate 70 0, ix := 0 }

/-- The constant distance schedule used by the loop witnesses. -/
def schedW : ℕ → ℚ := fun _ => 1/100

/-! Helper lemmas. -/

theorem getD_set_ite (l : List ℚ) (i j : ℕ) (v : ℚ) (h : j < l.length) :
    (l.set i v).getD j 0 = if i = j then v else l.getD j 0 := by
  rw [List.getD_eq_getElem _ _ (by simpa using h), List.getElem_set]
  split
  · rfl
  · rw [List.getD_eq_getElem]

theorem getD_replicate_zero (r n : ℕ) : (List.replicate r (0:ℚ)).getD n 0 = 0 := by
  rcases lt_or_le n r with h | h
  · rw [List.getD_eq_getElem _ _ (by simpa using h), List.getElem_replicate]
  · rw [List.getD_eq_default _ _ (by simpa using h)]

theorem clip1_eq_max (x : ℚ) : clip1 x = max (-(9/10)) (min (9/10) x) := by
  unfold clip1
  rcases lt_trichotomy x (9/10) with h | h | h
  · rcases lt_trichotomy x (-(9/10)) with h' | h' | h'
    · rw [if_neg (by linarith), if_pos h', min_eq_right h.le, max_eq_left (by linarith)]
    · rw [if_neg (by linarith), if_neg (by linarith), min_eq_right h.le, h',
        max_eq_left (by linarith)]
    · rw [if_neg (by linarith), if_neg (by linarith), min_eq_right h.le,
        max_eq_right (by linarith)]
  · rw [if_neg (by linarith), if_neg (by linarith), h, min_self,
      max_eq_right (by norm_num)]
  · rw [if_pos h, min_eq_left (by linarith), max_eq_right (by norm_num)]

theorem abs_clip1_le (x : ℚ) : |clip1 x| ≤ 9/10 := by
  rw [clip1_eq_max, abs_le]
  constructor
  · exact le_max_left _ _
  · exact max_le (by norm_num) (min_le_left _ _)

theorem clip1_of_abs_le (x : ℚ) (h : |x| ≤ 9/10) : clip1 x = x := by
  rw [abs_le] at h
  rw [clip1_eq_max, min_eq_right h.2, max_eq_right h.1]

theorem clip1_mono (x y : ℚ) (h : x ≤ y) : clip1 x ≤ clip1 y := by
  rw [clip1_eq_max, clip1_eq_max]
  exact max_le_max le_rfl (min_le_min le_rfl h)

theorem npRound_nonneg (q : ℚ) (h : 0 ≤ q) : 0 ≤ npRound q := by
  unfold npRound
  have hf : (0:ℤ) ≤ ⌊q⌋ := Int.floor_nonneg.mpr h
  split_ifs <;> omega

theorem npRound_eq_round (q : ℚ) (h : Int.fract q ≠ 1/2) : npRound q = round q := by
  unfold npRound
  rw [round_eq]
  have h0 : (0:ℚ) ≤ Int.fract q := Int.fract_nonneg q
  have h1 : Int.fract q < 1 := Int.fract_lt_one q
  have hq : (⌊q⌋ : ℚ) + Int.fract q = q := Int.floor_add_fract q
  rcases lt_trichotomy (Int.fract q) (1/2) with hc | hc | hc
  · rw [if_pos hc]
    symm
    rw [Int.floor_eq_iff]
    constructor
    · linarith
    · linarith
  · exact absurd hc h
  · rw [if_neg (by linarith), if_pos hc]
    symm
    rw [Int.floor_eq_iff]
    constructor
    · push_cast; linarith
    · push_cast; linarith

theorem mod_succ_aux (n M : ℕ) : (n % M + 1) % M = (n + 1) % M := by
  conv_rhs => rw [← Nat.div_add_mod n M]
  rw [Nat.add_comm (M * (n / M)) (n % M), Nat.add_assoc, Nat.add_comm (M * (n / M)) 1,
    ← Nat.add_assoc, Nat.add_mul_mod_self_left]

theorem div_pred_eq (k M : ℕ) (hM : 0 < M) (hk : ¬ M ∣ k) : (k - 1) / M = k / M := by
  have h1 : k % M ≠ 0 := fun h => hk (Nat.dvd_of_mod_eq_zero h)
  have h2 : M * (k / M) + k % M = k := Nat.div_add_mod k M
  have h3 : k % M < M := Nat.mod_lt _ hM
  have h4 : k - 1 = (k % M - 1) + M * (k / M) := by omega
  rw [h4, Nat.add_mul_div_left _ _ hM, Nat.div_eq_of_lt (by omega)]
  omega

theorem mod_lt_self_iff (n M : ℕ) (hM : 0 < M) : n % M < n ↔ M ≤ n := by
  constructor
  · intro h
    by_contra hc
    push_neg at hc
    rw [Nat.mod_eq_of_lt hc] at h
    omega
  · intro h
    have h1 : n % M < M := Nat.mod_lt _ hM
    omega

theorem read_slot_time (n M : ℕ) (hM : 0 < M) (hMn : M ≤ n) :
    n % M + M * ((n - 1 - n % M) / M) = n - M := by
  have h2 : M * (n / M) + n % M = n := Nat.div_add_mod n M
  have hq : 1 ≤ n / M := (Nat.one_le_div_iff hM).mpr hMn
  obtain ⟨q', hq'⟩ : ∃ q', n / M = q' + 1 := ⟨n / M - 1, by omega⟩
  rw [hq', Nat.mul_add, Nat.mul_one] at h2
  have hr : n % M < M := Nat.mod_lt _ hM
  have h3 : n - 1 - n % M = (M - 1) + M * q' := by omega
  rw [h3, Nat.add_mul_div_left _ _ hM, Nat.div_eq_of_lt (by omega), Nat.zero_add]
  omega

theorem guitar_init_ok (pitch fs : ℚ) (bc ac : List ℚ) (g : guitar)
    (h : guitar.init pitch fs bc ac = .ok g) :
    g.R = 9999/10000 ∧ g.RM = (9999/10000 : ℚ) ^ g.M ∧
    g.ybuf = List.replicate g.M 0 ∧ g.iy = 0 ∧ g.xbuf = 0 ∧
    (g.M : ℤ) = npRound (fs / pitch) ∧ g.bfs = List.replicate 6 0 := by
  unfold guitar.init at h
  split_ifs at h with h1 h2 h3 h4
  injection h with h5
  subst h5
  refine ⟨rfl, rfl, rfl, rfl, rfl, ?_, rfl⟩
  exact Int.toNat_of_nonneg (not_lt.mp h2)

theorem feedback_init_ok (maxd fs : ℚ) (f : feedback)
    (h : feedback.init maxd fs = .ok f) :
    f.xbuf = List.replicate f.L 0 ∧ f.ix = 0 ∧
    (f.L : ℤ) = ⌈maxd / SPEED_OF_SOUND * fs⌉ := by
  unfold feedback.init at h
  split_ifs at h with h1
  injection h with h2
  subst h2
  exact ⟨rfl, rfl, Int.toNat_of_nonneg (not_lt.mp h1)⟩

theorem guitar_step_ok (g : guitar) (xn : ℚ) (h1 : g.iy < g.ybuf.length)
    (h2 : g.M ≠ 0) : g.step xn = .ok (g.processSample xn) := by
  unfold guitar.step
  rw [if_neg (not_le.mpr h1), if_neg h2]

theorem guitar_step_ok_elim (g : guitar) (xn : ℚ) (p : ℚ × guitar)
    (h : g.step xn = .ok p) : p = g.processSample xn ∧ g.M ≠ 0 := by
  unfold guitar.step at h
  split_ifs at h with h1 h2
  injection h with h3
  exact ⟨h3.symm, h2⟩

theorem readIndex_lt (f : feedback) (fsG dist : ℚ) (hL : 0 < f.L) :
    f.readIndex fsG dist < f.L := by
  unfold feedback.readIndex
  have hpos : (0:ℤ) < (f.L : ℤ) := by exact_mod_cast hL
  have h1 := Int.emod_nonneg ((f.L : ℤ) + (f.ix : ℤ) - delaySamples fsG dist)
    (by omega : (f.L : ℤ) ≠ 0)
  have h2 := Int.emod_lt_of_pos ((f.L : ℤ) + (f.ix : ℤ) - delaySamples fsG dist) hpos
  omega

theorem feedback_get_ok (f : feedback) (fsG x dist : ℚ)
    (h1 : f.ix < f.xbuf.length) (h2 : f.xbuf.length = f.L) (h3 : 0 < f.L) :
    f.get fsG x dist = .ok (f.push fsG x dist) := by
  unfold feedback.get
  rw [if_neg (not_le.mpr h1), if_neg (Nat.pos_iff_ne_zero.mp h3),
    if_neg (not_le.mpr (h2 ▸ readIndex_lt f fsG dist h3))]

theorem feedback_get_ok_elim (f : feedback) (fsG x dist : ℚ) (p : ℚ × feedback)
    (h : f.get fsG x dist = .ok p) : p = f.push fsG x dist := by
  unfold feedback.get at h
  split_ifs at h
  injection h with h3
  exact h3.symm

theorem play_single (g : guitar) (x : ℚ) (ys : List ℚ) (g' : guitar)
    (h : g.play [x] = .ok (ys, g')) :
    ∃ y, ys = [y] ∧ g.step x = .ok (y, g') := by
  unfold guitar.play at h
  cases hs : g.step x with
  | error e =>
    rw [hs] at h
    exact Except.noConfusion h
  | ok p =>
    rw [hs] at h
    injection h with h1
    injection h1 with h2 h3
    subst h3
    exact ⟨p.1, h2.symm, rfl⟩

theorem write_slot_time (n M : ℕ) (hM : 0 < M) :
    n % M + M * ((n - n % M) / M) = n := by
  have h2 : M * (n / M) + n % M = n := Nat.div_add_mod n M
  have h3 : n - n % M = M * (n / M) := by omega
  rw [h3, Nat.mul_div_cancel_left _ hM]
  omega

theorem not_dvd_sub (n j M : ℕ) (hj : j < M) (hne : j ≠ n % M) :
    ¬ M ∣ (n - j) ∨ ¬ j < n := by
  by_cases hjn : j < n
  · left
    rintro ⟨m, hm⟩
    have h1 : n = j + M * m := by omega
    have h2 : n % M = j := by rw [h1, Nat.add_mul_mod_self_left, Nat.mod_eq_of_lt hj]
    exact hne h2.symm
  · right; exact hjn

theorem comb_invariant (g0 : guitar) (x : ℕ → ℚ) (hM : 0 < g0.M)
    (hbuf : g0.ybuf = List.replicate g0.M 0) (hiy : g0.iy = 0) (hxb : g0.xbuf = 0) :
    ∀ n, (gTrace g0 x n).M = g0.M ∧ (gTrace g0 x n).R = g0.R ∧
      (gTrace g0 x n).RM = g0.RM ∧
      (gTrace g0 x n).iy = n % g0.M ∧
      (gTrace g0 x n).xbuf = (if n = 0 then 0 else x (n-1)) ∧
      (gTrace g0 x n).ybuf.length = g0.M ∧
      (∀ j, j < g0.M → (gTrace g0 x n).ybuf.getD j 0 =
        (if j < n then combT g0 x (j + g0.M * ((n - 1 - j) / g0.M)) else 0)) := by
  intro n
  induction n with
  | zero =>
    refine ⟨rfl, rfl, rfl, ?_, ?_, ?_, ?_⟩
    · show g0.iy = 0 % g0.M
      rw [hiy, Nat.zero_mod]
    · show g0.xbuf = _
      rw [hxb, if_pos rfl]
    · show g0.ybuf.length = g0.M
      rw [hbuf, List.length_replicate]
    · intro j hj
      show g0.ybuf.getD j 0 = _
      rw [hbuf, if_neg (Nat.not_lt_zero j), getD_replicate_zero]
  | succ n ih =>
    obtain ⟨ihM, ihR, ihRM, ihiy, ihxb, ihlen, ihbuf⟩ := ih
    simp only [gTrace, guitar.processSample]
    refine ⟨ihM, ihR, ihRM, ?_, ?_, ?_, ?_⟩
    · show ((gTrace g0 x n).iy + 1) % (gTrace g0 x n).M = (n+1) % g0.M
      rw [ihiy, ihM, mod_succ_aux]
    · show x n = _
      rw [if_neg (Nat.succ_ne_zero n), Nat.add_sub_cancel]
    · show ((gTrace g0 x n).ybuf.set _ _).length = g0.M
      rw [List.length_set, ihlen]
    · intro j hj
      show ((gTrace g0 x n).ybuf.set (gTrace g0 x n).iy
          ((gTrace g0 x n).stepT (x n))).getD j 0 = _
      rw [getD_set_ite _ _ _ _ (by rw [ihlen]; exact hj), ihiy]
      by_cases hje : n % g0.M = j
      · rw [if_pos hje]
        have hjn : j < n + 1 := by
          have := Nat.mod_le n g0.M
          omega
        rw [if_pos hjn]
        have harg : j + g0.M * ((n + 1 - 1 - j) / g0.M) = n := by
          rw [← hje, Nat.add_sub_cancel]
          exact write_slot_time n g0.M hM
        rw [harg]
        rfl
      · rw [if_neg hje, ihbuf j hj]
        rcases Nat.lt_trichotomy j n with hjn | hjn | hjn
        · rw [if_pos hjn, if_pos (by omega)]
          have hnd : ¬ g0.M ∣ (n - j) := by
            rcases not_dvd_sub n j g0.M hj (fun hc => hje hc.symm) with hc | hc
            · exact hc
            · exact absurd hjn hc
          have harg : n + 1 - 1 - j = n - j := by omega
          have harg2 : n - 1 - j = (n - j) - 1 := by omega
          rw [harg, harg2, div_pred_eq _ _ hM hnd]
        · exfalso
          subst hjn
          exact hje (Nat.mod_eq_of_lt hj)
        · rw [if_neg (by omega), if_neg (by omega)]

theorem combT_rec (g0 : guitar) (x : ℕ → ℚ) (hM : 0 < g0.M)
    (hbuf : g0.ybuf = List.replicate g0.M 0) (hiy : g0.iy = 0) (hxb : g0.xbuf = 0)
    (n : ℕ) :
    combT g0 x n = g0.RM * (if g0.M ≤ n then combT g0 x (n - g0.M) else 0)
      + x n - g0.R * (if n = 0 then 0 else x (n-1)) := by
  obtain ⟨hMn, hRn, hRMn, hiyn, hxbn, hlenn, hbufn⟩ :=
    comb_invariant g0 x hM hbuf hiy hxb n
  have hstep : combT g0 x n = x n - (gTrace g0 x n).R * (gTrace g0 x n).xbuf
      + (gTrace g0 x n).RM * (gTrace g0 x n).ybuf.getD (gTrace g0 x n).iy 0 := rfl
  rw [hstep, hiyn, hxbn, hRn, hRMn, hbufn _ (Nat.mod_lt _ hM)]
  rcases le_or_lt g0.M n with h | h
  · rw [if_pos ((mod_lt_self_iff n g0.M hM).mpr h), if_pos h,
      read_slot_time n g0.M hM h]
    ring
  · have h1 : ¬ n % g0.M < n := by
      rw [mod_lt_self_iff n g0.M hM]; omega
    rw [if_neg h1, if_neg (show ¬ g0.M ≤ n by omega)]
    ring

theorem emod_toNat_formula (L a d : ℕ) (hL : 0 < L) (ha : a < L) (hd : d < L) :
    (((L:ℤ) + (a:ℤ) - (d:ℤ)) % (L:ℤ)).toNat = if a < d then L + a - d else a - d := by
  have hLz : (0:ℤ) < (L:ℤ) := by exact_mod_cast hL
  rcases lt_or_le a d with h | h
  · rw [if_pos h]
    have h1 : ((L:ℤ) + a - d) % L = (L:ℤ) + a - d :=
      Int.emod_eq_of_lt (by omega) (by omega)
    rw [h1]
    omega
  · rw [if_neg (not_lt.mpr h)]
    have h1 : (L:ℤ) + (a:ℤ) - (d:ℤ) = ((a:ℤ) - d) + (L:ℤ) * 1 := by ring
    rw [h1, Int.add_mul_emod_self_left]
    have h2 : ((a:ℤ) - d) % L = (a:ℤ) - d := Int.emod_eq_of_lt (by omega) (by omega)
    rw [h2]
    omega

theorem fb_invariant (f0 : feedback) (fsG dist : ℚ) (hL : 0 < f0.L)
    (hbuf : f0.xbuf = List.replicate f0.L 0) (hix : f0.ix = 0) :
    ∀ n, (fbTrace f0 fsG dist impulse n).L = f0.L ∧
      (fbTrace f0 fsG dist impulse n).ix = n % f0.L ∧
      (fbTrace f0 fsG dist impulse n).xbuf.length = f0.L ∧
      (∀ j, j < f0.L → (fbTrace f0 fsG dist impulse n).xbuf.getD j 0 =
        (if j = 0 ∧ 1 ≤ n ∧ n ≤ f0.L then 1 else 0)) := by
  intro n
  induction n with
  | zero =>
    refine ⟨rfl, ?_, ?_, ?_⟩
    · show f0.ix = 0 % f0.L
      rw [hix, Nat.zero_mod]
    · show f0.xbuf.length = f0.L
      rw [hbuf, List.length_replicate]
    · intro j hj
      show f0.xbuf.getD j 0 = _
      rw [hbuf, getD_replicate_zero, if_neg (by omega)]
  | succ n ih =>
    obtain ⟨ihL, ihix, ihlen, ihbuf⟩ := ih
    simp only [fbTrace, feedback.push]
    refine ⟨ihL, ?_, ?_, ?_⟩
    · show ((fbTrace f0 fsG dist impulse n).ix + 1) % (fbTrace f0 fsG dist impulse n).L
        = (n+1) % f0.L
      rw [ihix, ihL, mod_succ_aux]
    · show ((fbTrace f0 fsG dist impulse n).xbuf.set _ _).length = f0.L
      rw [List.length_set, ihlen]
    · intro j hj
      show ((fbTrace f0 fsG dist impulse n).xbuf.set (fbTrace f0 fsG dist impulse n).ix
          (impulse n)).getD j 0 = _
      rw [getD_set_ite _ _ _ _ (by rw [ihlen]; exact hj), ihix]
      have hmlt : n % f0.L < f0.L := Nat.mod_lt _ hL
      by_cases hje : n % f0.L = j
      · rw [if_pos hje]
        rcases Nat.eq_zero_or_pos n with hn0 | hn0
        · subst hn0
          rw [Nat.zero_mod] at hje
          rw [show impulse 0 = 1 from rfl, if_pos ⟨hje.symm, le_refl 1, hL⟩]
        · rw [show impulse n = 0 from if_neg (by omega)]
          by_cases hj0 : j = 0
          · subst hj0
            have hdvd : f0.L ∣ n := Nat.dvd_of_mod_eq_zero hje
            have hLn : f0.L ≤ n := Nat.le_of_dvd hn0 hdvd
            rw [if_neg (by omega)]
          · rw [if_neg (by simp [hj0])]
      · rw [if_neg hje, ihbuf j hj]
        by_cases hj0 : j = 0
        · have h1 : n % f0.L ≠ 0 := fun hc => hje (by rw [hj0]; exact hc)
          have h2 : n ≠ 0 := by
            intro hc; subst hc; exact h1 (Nat.zero_mod _)
          have h3 : n ≠ f0.L := by
            intro hc; subst hc; exact h1 (Nat.mod_self _)
          have hiff : (j = 0 ∧ 1 ≤ n ∧ n ≤ f0.L) ↔ (j = 0 ∧ 1 ≤ n + 1 ∧ n + 1 ≤ f0.L) := by
            constructor
            · rintro ⟨hh, h4, h5⟩
              exact ⟨hh, by omega, by omega⟩
            · rintro ⟨hh, h4, h5⟩
              exact ⟨hh, by omega, by omega⟩
          simp only [hiff]
        · simp [hj0]

theorem fb_output (f0 : feedback) (fsG dist : ℚ) (d : ℕ) (hL : 0 < f0.L)
    (hbuf : f0.xbuf = List.replicate f0.L 0) (hix : f0.ix = 0)
    (hd : delaySamples fsG dist = (d:ℤ)) (hdL : d < f0.L) :
    ∀ n, fbOut f0 fsG dist impulse n = (if n = d then 1 / dist else 0) := by
  intro n
  obtain ⟨ihL, ihix, ihlen, ihbuf⟩ := fb_invariant f0 fsG dist hL hbuf hix n
  have hmlt : n % f0.L < f0.L := Nat.mod_lt _ hL
  have hri : (fbTrace f0 fsG dist impulse n).readIndex fsG dist
      = if n % f0.L < d then f0.L + n % f0.L - d else n % f0.L - d := by
    unfold feedback.readIndex
    rw [hd, ihL, ihix]
    exact emod_toNat_formula f0.L (n % f0.L) d hL hmlt hdL
  have hgoal : fbOut f0 fsG dist impulse n =
      ((fbTrace f0 fsG dist impulse n).xbuf.set (fbTrace f0 fsG dist impulse n).ix
        (impulse n)).getD ((fbTrace f0 fsG dist impulse n).readIndex fsG dist) 0
        / dist := rfl
  rw [hgoal, hri, ihix]
  by_cases hnd : n = d
  · subst hnd
    rw [if_pos rfl, Nat.mod_eq_of_lt hdL, if_neg (lt_irrefl n), Nat.sub_self]
    rcases Nat.eq_zero_or_pos n with hn0 | hn0
    · subst hn0
      rw [getD_set_ite _ _ _ _ (by rw [ihlen]; exact hL),
        if_pos rfl, show impulse 0 = 1 from rfl]
    · rw [getD_set_ite _ _ _ _ (by rw [ihlen]; exact hL),
        if_neg (by omega), ihbuf 0 hL,
        if_pos ⟨rfl, hn0, Nat.le_of_lt hdL⟩]
  · rw [if_neg hnd]
    by_cases had : n % f0.L < d
    · rw [if_pos had,
        getD_set_ite _ _ _ _ (by rw [ihlen]; omega),
        if_neg (by omega), ihbuf _ (by omega), if_neg (by omega), zero_div]
    · rw [if_neg had]
      rcases Nat.eq_zero_or_pos d with hd0 | hd0
      · subst hd0
        rw [Nat.sub_zero, getD_set_ite _ _ _ _ (by rw [ihlen]; exact hmlt),
          if_pos rfl, show impulse n = 0 from if_neg hnd, zero_div]
      · rw [getD_set_ite _ _ _ _ (by rw [ihlen]; omega), if_neg (by omega),
          ihbuf _ (by omega), if_neg ?_, zero_div]
        rintro ⟨hr0, hn1, hnL⟩
        have heq : n % f0.L = d := by omega
        rcases Nat.lt_or_ge n f0.L with hc | hc
        · rw [Nat.mod_eq_of_lt hc] at heq
          exact hnd heq
        · have hnL' : n = f0.L := le_antisymm hnL hc
          rw [hnL', Nat.mod_self] at heq
          omega

theorem amplify_single (r : ℚ) : (amplify [r]).getD 0 0 = clip1 r := rfl

theorem amplify_getD_bound (ys : List ℚ) : |(amplify ys).getD 0 0| ≤ 9/10 := by
  cases ys with
  | nil =>
    rw [show (amplify []).getD 0 0 = 0 from rfl]
    norm_num
  | cons y t =>
    rw [show (amplify (y :: t)).getD 0 0 = clip1 y from rfl]
    exact abs_clip1_le y

theorem specStateFrom_shift (cl fsG : ℚ) (sched : ℕ → ℚ)
    (st : guitar × feedback × ℚ) (n : ℕ) :
    ∀ i, specStateFrom cl fsG sched st n (i+1)
      = specStateFrom cl fsG sched (specStep cl fsG sched n st).2 (n+1) i := by
  intro i
  induction i with
  | zero => rfl
  | succ i ih =>
    show (specStep cl fsG sched (n + (i+1)) (specStateFrom cl fsG sched st n (i+1))).2 = _
    rw [ih, show n + (i+1) = (n+1) + i from by omega]
    rfl

theorem simLoop_succ (cl fsG : ℚ) (sched : ℕ → ℚ) (n k : ℕ)
    (st : guitar × feedback × ℚ) :
    simLoop cl fsG sched n (k+1) st =
      (st.1.play [st.2.2]).bind (fun p =>
        (st.2.1.get fsG ((amplify p.1).getD 0 0) (sched n)).bind (fun q =>
          (simLoop cl fsG sched (n+1) k (p.2, q.2, cl * q.1)).bind (fun s =>
            .ok (((amplify p.1).getD 0 0) :: s.1, s.2)))) := rfl

theorem simLoop_ok_spec (cl fsG : ℚ) (sched : ℕ → ℚ) :
    ∀ (k n : ℕ) (st : guitar × feedback × ℚ) (out : List ℚ)
      (stF : guitar × feedback × ℚ),
    simLoop cl fsG sched n k st = .ok (out, stF) →
    out.length = k ∧ (∀ i, i < k → out.getD i 0
      = (specStep cl fsG sched (n+i) (specStateFrom cl fsG sched st n i)).1) := by
  intro k
  induction k with
  | zero =>
    intro n st out stF h
    replace h : (Except.ok ([], st) : Except PyErr (List ℚ × (guitar × feedback × ℚ)))
      = .ok (out, stF) := h
    injection h with h1
    injection h1 with h2 h3
    refine ⟨by rw [← h2]; rfl, ?_⟩
    intro i hi
    omega
  | succ k ih =>
    intro n st out stF h
    rw [simLoop_succ] at h
    cases hp : st.1.play [st.2.2] with
    | error e =>
      rw [hp] at h
      exact Except.noConfusion h
    | ok p =>
      rw [hp] at h
      simp only [Except.bind] at h
      obtain ⟨y0, hys, hstep⟩ := play_single _ _ _ _ hp
      obtain ⟨hps, -⟩ := guitar_step_ok_elim _ _ _ hstep
      cases hq : st.2.1.get fsG ((amplify p.1).getD 0 0) (sched n) with
      | error e =>
        rw [hq] at h
        exact Except.noConfusion h
      | ok q =>
        rw [hq] at h
        simp only [Except.bind] at h
        have hqe := feedback_get_ok_elim _ _ _ _ _ hq
        cases hr : simLoop cl fsG sched (n+1) k (p.2, q.2, cl * q.1) with
        | error e =>
          rw [hr] at h
          exact Except.noConfusion h
        | ok s =>
          rw [hr] at h
          simp only [Except.bind] at h
          injection h with h1
          injection h1 with h2 h3
          obtain ⟨ihlen, ihidx⟩ := ih (n+1) (p.2, q.2, cl * q.1) s.1 s.2
            (by rw [hr])
          have hy : (amplify p.1).getD 0 0 = clip1 (st.1.processSample st.2.2).1 := by
            rw [hys, amplify_single]
            have : y0 = (st.1.processSample st.2.2).1 := by
              rw [show y0 = (y0, p.2).1 from rfl, hps]
            rw [this]
          have hst' : (p.2, q.2, cl * q.1) = (specStep cl fsG sched n st).2 := by
            unfold specStep
            have hp2 : p.2 = (st.1.processSample st.2.2).2 := by
              rw [show p.2 = (y0, p.2).2 from rfl, hps]
            have hqv : q = st.2.1.push fsG (clip1 (st.1.processSample st.2.2).1)
                (sched n) := by
              rw [hqe, ← hy]
            rw [hp2, hqv]
          constructor
          · rw [← h2, List.length_cons, ihlen]
          · intro i hi
            cases i with
            | zero =>
              rw [← h2, List.getD_cons_zero, hy]
              show _ = (specStep cl fsG sched (n+0) st).1
              rw [Nat.add_zero]
              rfl
            | succ i =>
              rw [← h2, List.getD_cons_succ]
              rw [ihidx i (by omega)]
              rw [specStateFrom_shift, hst']
              rw [show (n+1) + i = n + (i+1) from by omega]

theorem simLoop_ok_bounded (cl fsG : ℚ) (sched : ℕ → ℚ) :
    ∀ (k n : ℕ) (st : guitar × feedback × ℚ) (out : List ℚ)
      (stF : guitar × feedback × ℚ),
    simLoop cl fsG sched n k st = .ok (out, stF) →
    ∀ y ∈ out, |y| ≤ 9/10 := by
  intro k
  induction k with
  | zero =>
    intro n st out stF h
    replace h : (Except.ok ([], st) : Except PyErr (List ℚ × (guitar × feedback × ℚ)))
      = .ok (out, stF) := h
    injection h with h1
    injection h1 with h2 h3
    intro y hy
    rw [← h2] at hy
    exact absurd hy (List.not_mem_nil y)
  | succ k ih =>
    intro n st out stF h
    rw [simLoop_succ] at h
    cases hp : st.1.play [st.2.2] with
    | error e =>
      rw [hp] at h
      exact Except.noConfusion h
    | ok p =>
      rw [hp] at h
      simp only [Except.bind] at h
      cases hq : st.2.1.get fsG ((amplify p.1).getD 0 0) (sched n) with
      | error e =>
        rw [hq] at h
        exact Except.noConfusion h
      | ok q =>
        rw [hq] at h
        simp only [Except.bind] at h
        cases hr : simLoop cl fsG sched (n+1) k (p.2, q.2, cl * q.1) with
        | error e =>
          rw [hr] at h
          exact Except.noConfusion h
        | ok s =>
          rw [hr] at h
          simp only [Except.bind] at h
          injection h with h1
          injection h1 with h2 h3
          intro y hy
          rw [← h2] at hy
          rcases List.mem_cons.mp hy with hy1 | hy2
          · rw [hy1]
            exact amplify_getD_bound p.1
          · exact ih (n+1) (p.2, q.2, cl * q.1) s.1 s.2 (by rw [hr]) y hy2

theorem runSim_eq (N : ℕ) (x0 pitch fsRes : ℚ) (bc ac : List ℚ)
    (maxd fsFb fsG cl : ℚ) (sched : ℕ → ℚ) :
    runSim N x0 pitch fsRes bc ac maxd fsFb fsG cl sched =
      (guitar.init pitch fsRes bc ac).bind (fun g =>
        (feedback.init maxd fsFb).bind (fun f =>
          (simLoop cl fsG sched 0 N (g, f, x0)).bind (fun r => .ok r.1))) := rfl

theorem runSim_ok_elim (N : ℕ) (x0 pitch fsRes : ℚ) (bc ac : List ℚ)
    (maxd fsFb fsG cl : ℚ) (sched : ℕ → ℚ) (out : List ℚ)
    (h : runSim N x0 pitch fsRes bc ac maxd fsFb fsG cl sched = .ok out) :
    ∃ g f stF, guitar.init pitch fsRes bc ac = .ok g ∧
      feedback.init maxd fsFb = .ok f ∧
      simLoop cl fsG sched 0 N (g, f, x0) = .ok (out, stF) := by
  rw [runSim_eq] at h
  cases hg : guitar.init pitch fsRes bc ac with
  | error e =>
    rw [hg] at h
    exact Except.noConfusion h
  | ok g =>
    rw [hg] at h
    simp only [Except.bind] at h
    cases hf : feedback.init maxd fsFb with
    | error e =>
      rw [hf] at h
      exact Except.noConfusion h
    | ok f =>
      rw [hf] at h
      simp only [Except.bind] at h
      cases hr : simLoop cl fsG sched 0 N (g, f, x0) with
      | error e =>
        rw [hr] at h
        exact Except.noConfusion h
      | ok r =>
        rw [hr] at h
        simp only [Except.bind] at h
        injection h with h1
        refine ⟨g, f, r.2, rfl, rfl, ?_⟩
        rw [hr, ← h1]

theorem ceil_strict_grow (a b : ℚ) (hab : a < b) :
    ∃ n : ℕ, 0 < n ∧ ⌈(n:ℚ) * a⌉ < ⌈(n:ℚ) * b⌉ := by
  obtain ⟨n, hn⟩ := exists_nat_gt (1 / (b - a))
  have hba : (0:ℚ) < b - a := sub_pos.mpr hab
  have h1 : (0:ℚ) < 1 / (b - a) := by positivity
  have hn0 : 0 < n := by exact_mod_cast h1.trans hn
  have h2 : 1 < (n:ℚ) * (b - a) := (div_lt_iff hba).mp hn
  refine ⟨n, hn0, ?_⟩
  rw [Int.lt_ceil]
  have h3 : (⌈(n:ℚ)*a⌉ : ℚ) < (n:ℚ)*a + 1 := Int.ceil_lt_add_one _
  have h4 : (n:ℚ)*(b-a) = n*b - n*a := by ring
  linarith

/-! Evaluation helpers for the concrete witness instances. -/

theorem lfilterStep_nil (x : ℚ) :
    lfilterStep [] [] ([0,0,0,0,0,0] : List ℚ) x = (0, [0,0,0,0,0,0]) := by
  unfold lfilterStep
  norm_num [List.getD_nil, List.getD_cons_zero, List.getD_cons_succ,
    show List.range 6 = [0,1,2,3,4,5] from by decide]

theorem play_nil_eq (g : guitar) : g.play [] = .ok ([], g) := rfl

theorem play_cons_eq (g : guitar) (x : ℚ) (rest : List ℚ) :
    g.play (x :: rest) = (g.step x).bind (fun p =>
      (p.2.play rest).bind (fun s => .ok (p.1 :: s.1, s.2))) := rfl

theorem getSeq_nil_eq (f : feedback) (fsG dist : ℚ) :
    f.getSeq fsG dist [] = .ok ([], f) := rfl

theorem getSeq_cons_eq (f : feedback) (fsG dist x : ℚ) (rest : List ℚ) :
    f.getSeq fsG dist (x :: rest) = (f.get fsG x dist).bind (fun p =>
      (p.2.getSeq fsG dist rest).bind (fun s => .ok (p.1 :: s.1, s.2))) := rfl

theorem simLoop_zero (cl fsG : ℚ) (sched : ℕ → ℚ) (n : ℕ)
    (st : guitar × feedback × ℚ) : simLoop cl fsG sched n 0 st = .ok ([], st) := rfl

theorem guitar_init_12000 : guitar.init 12000 24000 [] [] = .ok gW := by
  have h1 : npRound ((24000:ℚ)/12000) = 2 := by
    unfold npRound
    norm_num [Int.fract]
  unfold guitar.init
  rw [h1]
  norm_num [gW, List.replicate, show ((2:ℤ)).toNat = 2 from by decide]

theorem feedback_init_eval1 : feedback.init (1/100) 24000 = .ok fW1 := by
  have h1 : (⌈(1/100 : ℚ) / SPEED_OF_SOUND * 24000⌉ : ℤ) = 1 := by
    rw [Int.ceil_eq_iff]
    norm_num [SPEED_OF_SOUND]
  unfold feedback.init
  rw [h1]
  norm_num [fW1, List.replicate, show ((1:ℤ)).toNat = 1 from by decide]

theorem feedback_init_eval1b : feedback.init 1 343 = .ok fW1 := by
  have h1 : (⌈(1 : ℚ) / SPEED_OF_SOUND * 343⌉ : ℤ) = 1 := by
    rw [Int.ceil_eq_iff]
    norm_num [SPEED_OF_SOUND]
  unfold feedback.init
  rw [h1]
  norm_num [fW1, List.replicate, show ((1:ℤ)).toNat = 1 from by decide]

theorem feedback_init_eval6 : feedback.init 4 343 = .ok fW6 := by
  have h1 : (⌈(4 : ℚ) / SPEED_OF_SOUND * 343⌉ : ℤ) = 4 := by
    rw [Int.ceil_eq_iff]
    norm_num [SPEED_OF_SOUND]
  unfold feedback.init
  rw [h1]
  norm_num [fW6, List.replicate, show ((4:ℤ)).toNat = 4 from by decide]

theorem feedback_init_eval3 : feedback.init 1 24000 = .ok fW3 := by
  have h1 : (⌈(1 : ℚ) / SPEED_OF_SOUND * 24000⌉ : ℤ) = 70 := by
    rw [Int.ceil_eq_iff]
    norm_num [SPEED_OF_SOUND]
  unfold feedback.init
  rw [h1]
  norm_num [fW3, show ((70:ℤ)).toNat = 70 from by decide]

theorem ds_eval1 : delaySamples 24000 (1/100) = 1 := by
  unfold delaySamples
  rw [Int.ceil_eq_iff]
  norm_num [SPEED_OF_SOUND]

theorem ds_eval6 : delaySamples 343 (21/10) = 3 := by
  unfold delaySamples
  rw [Int.ceil_eq_iff]
  norm_num [SPEED_OF_SOUND]

theorem ds_eval_1000 : delaySamples 343 1000 = 1000 := by
  unfold delaySamples
  rw [Int.ceil_eq_iff]
  norm_num [SPEED_OF_SOUND]

theorem runSim_eval_w : runSim 2 1 12000 24000 [] [] (1/100) 24000 24000 1 schedW
    = .ok [0, 0] := by
  rw [runSim_eq, guitar_init_12000, feedback_init_eval1]
  simp only [Except.bind]
  norm_num [simLoop_succ, simLoop_zero, play_cons_eq, play_nil_eq, guitar.step,
    guitar.processSample, guitar.stepT, lfilterStep_nil, feedback.get,
    feedback.push, feedback.readIndex, ds_eval1, amplify, clip1, gW, fW1, schedW,
    Except.bind, List.getD_cons_zero, List.getD_cons_succ, List.getD_nil,
    List.replicate]

/-! Claim theorems. -/

/-- C5: for every input x, `clip(x)` (the scalar amplifier, threshold 0.9)
equals `max(-threshold, min(threshold, x))`; consequently it lies in
[-threshold, threshold], is the identity whenever |x| <= threshold, and is
monotone non-decreasing.  The array form `amplify` is a fresh elementwise
copy, so the input is not mutated. -/
theorem clip_spec (x y : ℚ) :
    clip1 x = max (-(9/10)) (min (9/10) x) ∧
    |clip1 x| ≤ 9/10 ∧
    (|x| ≤ 9/10 → clip1 x = x) ∧
    (x ≤ y → clip1 x ≤ clip1 y) ∧
    amplify [x] = [clip1 x] :=
  ⟨clip1_eq_max x, abs_clip1_le x, clip1_of_abs_le x, clip1_mono x y, rfl⟩

/-- Witness for C5 at the concrete inputs x = 1/2 and y = 2. -/
theorem clip_spec_w :
    clip1 (1/2) = 1/2 ∧ clip1 (1/2) ≤ clip1 2 ∧
    clip1 2 = max (-(9/10)) (min (9/10) 2) :=
  ⟨(clip_spec (1/2) 2).2.2.1 (by rw [abs_of_nonneg] <;> norm_num),
   (clip_spec (1/2) 2).2.2.2.1 (by norm_num),
   (clip_spec 2 2).1⟩

/-- C3 counterexample: `feedback.get` never checks the delay against the
buffer capacity.  With maxDistanceMeters = 1 (sample rate 343, so L = 1)
and distanceMeters = 1000, the delay-in-samples is 1000, far outside
[0, L), yet the call succeeds instead of failing with DistanceOutOfRange
(no such error exists in the code). -/
theorem push_out_of_range_succeeds :
    (feedback.init 1 343).map feedback.L = .ok 1 ∧
    delaySamples 343 1000 = 1000 ∧
    ¬ delaySamples 343 1000 < 1 ∧
    ((feedback.init 1 343).bind (fun f => f.get 343 0 1000)).isOk = true := by
  refine ⟨?_, ds_eval_1000, by rw [ds_eval_1000]; norm_num, ?_⟩
  · rw [feedback_init_eval1b]
    rfl
  · rw [feedback_init_eval1b]
    simp only [Except.bind]
    norm_num [feedback.get, feedback.readIndex, ds_eval_1000, fW1,
      show ((((1:ℕ):ℤ) + ((0:ℕ):ℤ) - 1000) % ((1:ℕ):ℤ)).toNat = 0 from by decide,
      Except.isOk, Except.toBool]

/-- C3 amended: `push` performs no range check at all.  On any channel
state with a positive buffer length and an in-range write index, `get`
succeeds for every distance; the read offset is the delay reduced modulo
L (so out-of-capacity delays silently alias), and the returned sample is
the aliased slot divided by the distance. -/
theorem push_aliases_modulo (f : feedback) (fsG x dist : ℚ)
    (h1 : f.ix < f.xbuf.length) (h2 : f.xbuf.length = f.L) (h3 : 0 < f.L) :
    f.get fsG x dist = .ok (f.push fsG x dist) ∧
    f.readIndex fsG dist < f.L ∧
    (f.push fsG x dist).1
      = (f.xbuf.set f.ix x).getD (f.readIndex fsG dist) 0 / dist :=
  ⟨feedback_get_ok f fsG x dist h1 h2 h3, readIndex_lt f fsG dist h3, rfl⟩

/-- Witness for C3's amended claim at the counterexample instance
(L = 1 channel, distance 1000). -/
theorem push_aliases_modulo_w :
    fW1.get 343 0 1000 = .ok (fW1.push 343 0 1000) ∧
    fW1.readIndex 343 1000 < fW1.L :=
  ⟨(push_aliases_modulo fW1 343 0 1000 (by norm_num [fW1]) (by norm_num [fW1])
      (by norm_num [fW1])).1,
   (push_aliases_modulo fW1 343 0 1000 (by norm_num [fW1]) (by norm_num [fW1])
      (by norm_num [fW1])).2.1⟩

/-- C7 counterexample: `guitar.__init__` performs no input validation.
With pitch = -110 and sample rate = -24000 (both non-positive) the
constructor succeeds -- M = round((-24000)/(-110)) = 218 is positive, the
filter cutoff 5*(-110)/(-24000) is positive -- so no error of any kind
(let alone InvalidParameter) is raised. -/
theorem init_negative_params_succeeds :
    (guitar.init (-110) (-24000) [] []).isOk = true := by
  have h1 : npRound ((-24000:ℚ)/(-110)) = 218 := by
    unfold npRound
    norm_num [Int.fract, show ((-24000:ℚ)/(-110)) = 2400/11 from by norm_num]
  unfold guitar.init
  rw [h1]
  norm_num [Except.isOk, Except.toBool]

/-- C7 amended: construction never raises a dedicated InvalidParameter
error.  For non-positive inputs it fails only with the incidental Python
errors (ZeroDivisionError from the divisions when pitch = 0 or fs = 0,
ValueError from `np.zeros` on a negative period or from the non-positive
filter cutoff), and when pitch and fs are both negative it does not fail
at all. -/
theorem resonator_init_no_validation (pitch fs : ℚ) (bc ac : List ℚ)
    (h : pitch ≤ 0 ∨ fs ≤ 0) :
    ((guitar.init pitch fs bc ac).isOk = true ↔ (pitch < 0 ∧ fs < 0)) ∧
    (∀ e, guitar.init pitch fs bc ac = .error e →
      e = PyErr.zeroDivision ∨ e = PyErr.valueError) := by
  constructor
  · constructor
    · intro hOk
      rcases lt_trichotomy pitch 0 with hp | hp | hp
      · rcases lt_trichotomy fs 0 with hf | hf | hf
        · exact ⟨hp, hf⟩
        · exfalso
          subst hf
          unfold guitar.init at hOk
          rw [if_neg (ne_of_lt hp), zero_div,
            if_neg (by norm_num [npRound, Int.fract]), if_pos rfl] at hOk
          simp [Except.isOk, Except.toBool] at hOk
        · exfalso
          unfold guitar.init at hOk
          rw [if_neg (ne_of_lt hp)] at hOk
          by_cases hnp : npRound (fs / pitch) < 0
          · rw [if_pos hnp] at hOk
            simp [Except.isOk, Except.toBool] at hOk
          · have hneg : 5 * pitch / fs < 0 :=
              div_neg_of_neg_of_pos (by nlinarith) hf
            rw [if_neg hnp, if_neg (ne_of_gt hf),
              if_pos (le_trans (min_le_right _ _) hneg.le)] at hOk
            simp [Except.isOk, Except.toBool] at hOk
      · exfalso
        unfold guitar.init at hOk
        rw [if_pos hp] at hOk
        simp [Except.isOk, Except.toBool] at hOk
      · have hf : fs ≤ 0 := by
          rcases h with h | h
          · exact absurd hp (not_lt.mpr h)
          · exact h
        exfalso
        rcases lt_or_eq_of_le hf with hf' | hf'
        · unfold guitar.init at hOk
          rw [if_neg (ne_of_gt hp)] at hOk
          by_cases hnp : npRound (fs / pitch) < 0
          · rw [if_pos hnp] at hOk
            simp [Except.isOk, Except.toBool] at hOk
          · have hneg : 5 * pitch / fs < 0 :=
              div_neg_of_pos_of_neg (by nlinarith) hf'
            rw [if_neg hnp, if_neg (ne_of_lt hf'),
              if_pos (le_trans (min_le_right _ _) hneg.le)] at hOk
            simp [Except.isOk, Except.toBool] at hOk
        · subst hf'
          unfold guitar.init at hOk
          rw [if_neg (ne_of_gt hp), zero_div,
            if_neg (by norm_num [npRound, Int.fract]), if_pos rfl] at hOk
          simp [Except.isOk, Except.toBool] at hOk
    · rintro ⟨hp, hf⟩
      have hdiv : 0 < fs / pitch := div_pos_iff.mpr (Or.inr ⟨hf, hp⟩)
      have hcut : 0 < 5 * pitch / fs := div_pos_iff.mpr (Or.inr ⟨by nlinarith, hf⟩)
      unfold guitar.init
      rw [if_neg (ne_of_lt hp), if_neg (not_lt.mpr (npRound_nonneg _ hdiv.le)),
        if_neg (ne_of_lt hf), if_neg (not_le.mpr (lt_min (by norm_num) hcut))]
      rfl
  · intro e he
    unfold guitar.init at he
    split_ifs at he
    · injection he with h1
      exact Or.inl h1.symm
    · injection he with h1
      exact Or.inr h1.symm
    · injection he with h1
      exact Or.inl h1.symm
    · injection he with h1
      exact Or.inr h1.symm

/-- Witness for C7's amended claim: pitch = -3, fs = -5 are both
non-positive and construction succeeds. -/
theorem resonator_init_no_validation_w :
    (guitar.init (-3) (-5) [] []).isOk = true :=
  ((resonator_init_no_validation (-3) (-5) [] []
    (Or.inl (by norm_num))).1).mpr ⟨by norm_num, by norm_num⟩

/-- C4: for a Resonator built by `guitar.__init__` with pitch P and sample
rate Fs (any valid construction with M >= 1), the comb stage realizes
`t[n] = rho^M * t[n-M] + x[n] - rho * x[n-1]` with rho = 0.9999 and
`rho^M` the stored RM, where M is the constructed period
round(Fs/P) (numpy's round; it agrees with `round` away from half-sample
ties): the value read is the buffer slot about to be overwritten (the comb
output from M steps ago), the new comb output is stored in that slot, the
write index advances modulo M, and the current input is recorded as the
previous input for the next call. -/
theorem comb_stage_recurrence (pitch fs : ℚ) (bc ac : List ℚ) (g : guitar)
    (hg : guitar.init pitch fs bc ac = .ok g) (hM : 0 < g.M) (x : ℕ → ℚ) :
    g.R = 9999/10000 ∧ g.RM = (9999/10000 : ℚ) ^ g.M ∧
    (Int.fract (fs / pitch) ≠ 1/2 → (g.M : ℤ) = round (fs / pitch)) ∧
    (∀ n, combT g x n = g.RM * (if g.M ≤ n then combT g x (n - g.M) else 0)
      + x n - g.R * (if n = 0 then 0 else x (n-1))) ∧
    (∀ n, (gTrace g x n).iy = n % g.M) ∧
    (∀ n, (gTrace g x (n+1)).xbuf = x n) ∧
    (∀ n, (gTrace g x (n+1)).ybuf.getD (n % g.M) 0 = combT g x n) := by
  obtain ⟨hR, hRM, hbuf, hiy, hxb, hMval, -⟩ := guitar_init_ok pitch fs bc ac g hg
  refine ⟨hR, hRM, ?_, ?_, ?_, ?_, ?_⟩
  · intro hfr
    rw [hMval, npRound_eq_round _ hfr]
  · intro n
    exact combT_rec g x hM hbuf hiy hxb n
  · intro n
    exact (comb_invariant g x hM hbuf hiy hxb n).2.2.2.1
  · intro n
    have h5 := (comb_invariant g x hM hbuf hiy hxb (n+1)).2.2.2.2.1
    rw [if_neg (Nat.succ_ne_zero n), Nat.add_sub_cancel] at h5
    exact h5
  · intro n
    have h5 := (comb_invariant g x hM hbuf hiy hxb (n+1)).2.2.2.2.2.2
      (n % g.M) (Nat.mod_lt _ hM)
    rw [h5, if_pos (by have := Nat.mod_le n g.M; omega)]
    congr 1
    rw [Nat.add_sub_cancel]
    exact write_slot_time n g.M hM

/-- Witness for C4: the guitar built from pitch 12000 at fs 24000 (M = 2),
driven by a unit impulse; at n = 2 the comb output is
RM * t[0] + x[2] - R * x[1]. -/
theorem comb_stage_recurrence_w :
    guitar.init 12000 24000 [] [] = .ok gW ∧
    (gW.M : ℤ) = round ((24000 : ℚ) / 12000) ∧
    combT gW impulse 2
      = gW.RM * combT gW impulse 0 + impulse 2 - gW.R * impulse 1 := by
  have h := comb_stage_recurrence 12000 24000 [] [] gW guitar_init_12000
    (by norm_num [gW]) impulse
  refine ⟨guitar_init_12000, h.2.2.1 ?_, ?_⟩
  · norm_num [Int.fract, gW]
  · have h4 := h.2.2.2.1 2
    rw [if_pos (by norm_num [gW]), if_neg (by norm_num)] at h4
    simpa [gW] using h4

/-- C9: the circular write indices stay in bounds.  A freshly constructed
Resonator has write index 0 (< M when M > 0) and any `guitar.play` call
from an in-bounds state ends in-bounds; a single `processSample` always
lands in [0, M).  A freshly constructed Delay Channel has write index 0
(< L when L > 0), each `push` advances the index modulo L, and the read
offset is reduced modulo L, hence also in [0, L). -/
theorem indices_in_bounds :
    (∀ pitch fs : ℚ, ∀ bc ac : List ℚ, ∀ g : guitar,
      guitar.init pitch fs bc ac = .ok g → 0 < g.M → g.iy < g.M) ∧
    (∀ g : guitar, ∀ xn : ℚ, 0 < g.M →
      (g.processSample xn).2.iy < (g.processSample xn).2.M) ∧
    (∀ g : guitar, ∀ xs : List ℚ, ∀ ys : List ℚ, ∀ g' : guitar,
      g.play xs = .ok (ys, g') → g.iy < g.M → g'.iy < g'.M) ∧
    (∀ maxd fs : ℚ, ∀ f : feedback,
      feedback.init maxd fs = .ok f → 0 < f.L → f.ix < f.L) ∧
    (∀ f : feedback, ∀ fsG x dist : ℚ, 0 < f.L →
      (f.push fsG x dist).2.ix < (f.push fsG x dist).2.L) ∧
    (∀ f : feedback, ∀ fsG dist : ℚ, 0 < f.L → f.readIndex fsG dist < f.L) := by
  refine ⟨?_, ?_, ?_, ?_, ?_, ?_⟩
  · intro pitch fs bc ac g hg hM
    obtain ⟨-, -, -, hiy, -⟩ := guitar_init_ok pitch fs bc ac g hg
    rw [hiy]
    exact hM
  · intro g xn hM
    exact Nat.mod_lt _ hM
  · intro g xs
    induction xs generalizing g with
    | nil =>
      intro ys g' h hiy
      replace h : (Except.ok ([], g) : Except PyErr (List ℚ × guitar))
        = .ok (ys, g') := h
      injection h with h1
      injection h1 with h2 h3
      rw [← h3]
      exact hiy
    | cons xh xt ih =>
      intro ys g' h hiy
      rw [play_cons_eq] at h
      cases hs : g.step xh with
      | error e =>
        rw [hs] at h
        exact Except.noConfusion h
      | ok p =>
        rw [hs] at h
        simp only [Except.bind] at h
        obtain ⟨hps, hM0⟩ := guitar_step_ok_elim _ _ _ hs
        cases hr : p.2.play xt with
        | error e =>
          rw [hr] at h
          exact Except.noConfusion h
        | ok s =>
          rw [hr] at h
          simp only [Except.bind] at h
          injection h with h1
          injection h1 with h2 h3
          have hp2 : p.2.iy < p.2.M := by
            have : p.2 = (g.processSample xh).2 := by
              rw [show p.2 = (p.1, p.2).2 from rfl, hps]
            rw [this]
            exact Nat.mod_lt _ (Nat.pos_of_ne_zero hM0)
          have := ih p.2 s.1 s.2 (by rw [hr]) hp2
          rw [← h3]
          exact this
  · intro maxd fs f hf hL
    obtain ⟨-, hix, -⟩ := feedback_init_ok maxd fs f hf
    rw [hix]
    exact hL
  · intro f fsG x dist hL
    exact Nat.mod_lt _ hL
  · intro f fsG dist hL
    exact readIndex_lt f fsG dist hL

/-- Witness for C9 at the concrete states gW (M = 2) and fW1 (L = 1). -/
theorem indices_in_bounds_w :
    gW.iy < gW.M ∧ (gW.processSample 1).2.iy < (gW.processSample 1).2.M ∧
    fW1.ix < fW1.L ∧ fW1.readIndex 343 1 < fW1.L :=
  ⟨indices_in_bounds.1 12000 24000 [] [] gW guitar_init_12000 (by norm_num [gW]),
   indices_in_bounds.2.1 gW 1 (by norm_num [gW]),
   indices_in_bounds.2.2.2.1 (1/100) 24000 fW1 feedback_init_eval1
     (by norm_num [fW1]),
   indices_in_bounds.2.2.2.2.2 fW1 343 1 (by norm_num [fW1])⟩

/-- C10: the delay channel's per-call delay uses the module-global sample
rate while the buffer was sized with the construction-time sample rate:
the buffer length of a constructed channel is ceil(maxd/343*fsCtor), the
per-call delay is `delaySamples fsG dist = ceil(dist/343*fsG)` and the
read offset subtracts exactly that quantity; the two formulas agree for
every distance when the rates agree, for every pair of distinct positive
rates some distance makes them disagree, and concretely a channel built
with maxDistance 1 at 24000 Hz (L = 70) sees a delay of 140 > L when the
global rate is 48000. -/
theorem global_fs_delay_mismatch :
    (∀ maxd fs : ℚ, ∀ f : feedback, feedback.init maxd fs = .ok f →
      (f.L : ℤ) = ⌈maxd / SPEED_OF_SOUND * fs⌉) ∧
    (∀ fsG dist : ℚ, delaySamples fsG dist = ⌈dist / SPEED_OF_SOUND * fsG⌉) ∧
    (∀ f : feedback, ∀ fsG dist : ℚ, f.readIndex fsG dist
      = (((f.L : ℤ) + (f.ix : ℤ) - delaySamples fsG dist) % (f.L : ℤ)).toNat) ∧
    (∀ fsG fsC : ℚ, fsG = fsC →
      ∀ dist, delaySamples fsG dist = delaySamples fsC dist) ∧
    (∀ fsG fsC : ℚ, 0 < fsC → 0 < fsG → fsC ≠ fsG →
      ∃ dist, 0 < dist ∧ delaySamples fsG dist ≠ delaySamples fsC dist) ∧
    (∀ f : feedback, feedback.init 1 24000 = .ok f →
      (f.L : ℤ) < delaySamples 48000 1) := by
  have key : ∀ fsG fsC : ℚ, 0 < fsC → 0 < fsG → fsC < fsG →
      ∃ dist, 0 < dist ∧ delaySamples fsC dist < delaySamples fsG dist := by
    intro fsG fsC hC hG hlt
    obtain ⟨n, hn0, hceil⟩ := ceil_strict_grow fsC fsG hlt
    refine ⟨SPEED_OF_SOUND * n,
      mul_pos (by norm_num [SPEED_OF_SOUND]) (by exact_mod_cast hn0), ?_⟩
    have h343 : SPEED_OF_SOUND ≠ 0 := by norm_num [SPEED_OF_SOUND]
    have harg : ∀ r : ℚ, SPEED_OF_SOUND * (n:ℚ) / SPEED_OF_SOUND * r = (n:ℚ) * r := by
      intro r
      rw [mul_comm SPEED_OF_SOUND (n:ℚ), mul_div_assoc, div_self h343, mul_one]
    unfold delaySamples
    rw [harg, harg]
    exact hceil
  refine ⟨?_, ?_, ?_, ?_, ?_, ?_⟩
  · intro maxd fs f hf
    exact (feedback_init_ok maxd fs f hf).2.2
  · intro fsG dist
    rfl
  · intro f fsG dist
    rfl
  · intro fsG fsC h dist
    rw [h]
  · intro fsG fsC hC hG hne
    rcases lt_or_gt_of_ne hne with hlt | hlt
    · obtain ⟨dist, hd0, hd⟩ := key fsG fsC hC hG hlt
      exact ⟨dist, hd0, (ne_of_lt hd).symm⟩
    · obtain ⟨dist, hd0, hd⟩ := key fsC fsG hG hC hlt
      exact ⟨dist, hd0, ne_of_lt hd⟩
  · intro f hf
    rw [show f = fW3 from by
      have h0 := hf.symm.trans feedback_init_eval3
      injection h0]
    rw [show fW3.L = 70 from rfl,
      show delaySamples 48000 1 = 140 from by
        unfold delaySamples
        rw [Int.ceil_eq_iff]
        norm_num [SPEED_OF_SOUND]]
    norm_num

/-- Witness for C10: the agreement and mismatch facts instantiated at
24000 vs 48000 Hz and the concrete L = 70 channel. -/
theorem global_fs_delay_mismatch_w :
    delaySamples 24000 5 = delaySamples 24000 5 ∧
    (∃ dist, 0 < dist ∧ delaySamples 48000 dist ≠ delaySamples 24000 dist) ∧
    (fW3.L : ℤ) < delaySamples 48000 1 :=
  ⟨global_fs_delay_mismatch.2.2.2.1 24000 24000 rfl 5,
   global_fs_delay_mismatch.2.2.2.2.1 48000 24000 (by norm_num) (by norm_num)
     (by norm_num),
   global_fs_delay_mismatch.2.2.2.2.2 fW3 feedback_init_eval3⟩

/-- C1: the notebook's simulation loop refines the spec's Loop Driver.
If a run completes, the returned sequence has length N; its n-th sample
equals `clip(Resonator.processSample(feedbackInput_n))` where the state
trace is the spec-side `specStateFrom` iteration started from the
constructed components and the excitation; the initial feedback input is
the excitation; and the feedback input of iteration n+1 is
`couplingLoss * DelayChannel.push(output_n, scheduleFn(n))` -- it derives
strictly from iteration n's output (single-sample-delay feedback, no
look-ahead). -/
theorem loopDriver_refines_spec (N : ℕ) (x0 pitch fsRes : ℚ) (bc ac : List ℚ)
    (maxd fsFb fsG cl : ℚ) (sched : ℕ → ℚ) (g0 : guitar) (f0 : feedback)
    (out : List ℚ)
    (hg : guitar.init pitch fsRes bc ac = .ok g0)
    (hf : feedback.init maxd fsFb = .ok f0)
    (hrun : runSim N x0 pitch fsRes bc ac maxd fsFb fsG cl sched = .ok out) :
    out.length = N ∧
    (specStateFrom cl fsG sched (g0, f0, x0) 0 0).2.2 = x0 ∧
    (∀ i, i < N → out.getD i 0 = clip1
      (((specStateFrom cl fsG sched (g0, f0, x0) 0 i).1).processSample
        ((specStateFrom cl fsG sched (g0, f0, x0) 0 i).2.2)).1) ∧
    (∀ i, (specStateFrom cl fsG sched (g0, f0, x0) 0 (i+1)).2.2 =
      cl * (((specStateFrom cl fsG sched (g0, f0, x0) 0 i).2.1).push fsG
        (specOut cl fsG sched (g0, f0, x0) i) (sched i)).1) := by
  obtain ⟨g', f', stF, hg', hf', hsim⟩ :=
    runSim_ok_elim N x0 pitch fsRes bc ac maxd fsFb fsG cl sched out hrun
  have hge : g' = g0 := by
    have h0 := hg'.symm.trans hg
    injection h0
  have hfe : f' = f0 := by
    have h0 := hf'.symm.trans hf
    injection h0
  subst hge hfe
  obtain ⟨hlen, hidx⟩ := simLoop_ok_spec cl fsG sched N 0 (g', f', x0) out stF hsim
  refine ⟨hlen, rfl, ?_, ?_⟩
  · intro i hi
    have h3 := hidx i hi
    rw [Nat.zero_add] at h3
    exact h3
  · intro i
    rw [show specStateFrom cl fsG sched (g', f', x0) 0 (i+1)
      = (specStep cl fsG sched (0+i)
          (specStateFrom cl fsG sched (g', f', x0) 0 i)).2 from rfl,
      Nat.zero_add]
    rfl

/-- Witness for C1: the N = 2 reference run (pitch 12000, fs 24000,
maxDistance 1/100, coupling loss 1, constant 1/100 m schedule) completes
with output [0, 0]; its length is 2 and sample 0 is the clipped resonator
output on the excitation. -/
theorem loopDriver_refines_spec_w :
    runSim 2 1 12000 24000 [] [] (1/100) 24000 24000 1 schedW = .ok [0, 0] ∧
    ([0, 0] : List ℚ).length = 2 ∧
    ([0, 0] : List ℚ).getD 0 0 = clip1 ((gW.processSample 1).1) := by
  have h := loopDriver_refines_spec 2 1 12000 24000 [] [] (1/100) 24000 24000 1
    schedW gW fW1 [0, 0] guitar_init_12000 feedback_init_eval1 runSim_eval_w
  exact ⟨runSim_eval_w, h.1, h.2.2.1 0 (by norm_num)⟩

/-- C2: every sample of a completed simulation run lies in
[-threshold, threshold]: |y[n]| <= 0.9, for every excitation, pitch,
sample rate, coupling loss, maximum distance, filter coefficients and
distance schedule for which the run completes. -/
theorem loop_output_bounded (N : ℕ) (x0 pitch fsRes : ℚ) (bc ac : List ℚ)
    (maxd fsFb fsG cl : ℚ) (sched : ℕ → ℚ) (out : List ℚ)
    (hrun : runSim N x0 pitch fsRes bc ac maxd fsFb fsG cl sched = .ok out) :
    ∀ y ∈ out, |y| ≤ 9/10 := by
  obtain ⟨g, f, stF, -, -, hsim⟩ :=
    runSim_ok_elim N x0 pitch fsRes bc ac maxd fsFb fsG cl sched out hrun
  exact simLoop_ok_bounded cl fsG sched N 0 (g, f, x0) out stF hsim

/-- Witness for C2 at the concrete N = 2 run. -/
theorem loop_output_bounded_w :
    runSim 2 1 12000 24000 [] [] (1/100) 24000 24000 1 schedW = .ok [0, 0] ∧
    |(0:ℚ)| ≤ 9/10 :=
  ⟨runSim_eval_w,
   loop_output_bounded 2 1 12000 24000 [] [] (1/100) 24000 24000 1 schedW
     [0, 0] runSim_eval_w 0 (by simp)⟩

/-- C6 counterexample: the claim places the impulse at lag
round(d/343*Fs), but the code uses ceil.  With distance 21/10 m at a
343 Hz clock the round-lag is 2 while the computed delay is 3: pushing
[1,0,0,0] through a fresh in-capacity channel (L = 4 > 3) returns
[0,0,0,10/21] -- zero at the claimed time 2, and the attenuated impulse
at time 3 (violating "zero at every other time"). -/
theorem delay_round_lag_false :
    ((feedback.init 4 343).bind
        (fun f => f.getSeq 343 (21/10) [1,0,0,0])).map Prod.fst
      = .ok [0, 0, 0, 10/21] ∧
    round ((21/10 : ℚ) / SPEED_OF_SOUND * 343) = 2 ∧
    delaySamples 343 (21/10) = 3 := by
  refine ⟨?_, ?_, ds_eval6⟩
  · rw [feedback_init_eval6]
    simp only [Except.bind]
    norm_num [getSeq_cons_eq, getSeq_nil_eq, feedback.get, feedback.push,
      feedback.readIndex, ds_eval6, fW6, Except.bind, Except.map,
      List.getD_cons_zero, List.getD_cons_succ, List.getD_nil, List.replicate,
      show ((2:ℤ)).toNat = 2 from by decide, show ((3:ℤ)).toNat = 3 from by decide]
  · have h343 : (21/10 : ℚ) / SPEED_OF_SOUND * 343 = 21/10 := by
      norm_num [SPEED_OF_SOUND]
    rw [h343, round_eq]
    norm_num

/-- C6 amended: for a fresh Delay Channel driven at a fixed distance
whose per-call delay d = ceil(distance/343*fsGlobal) (the global sample
rate, per the code) lies within the buffer capacity, pushing a unit
impulse at time 0 and zeros afterwards produces the impulse attenuated by
1/distance at output time d exactly once and zero at every other time;
no call raises. -/
theorem delay_impulse_response (maxd fs fsG dist : ℚ) (f0 : feedback) (d : ℕ)
    (hf : feedback.init maxd fs = .ok f0) (hdist : 0 < dist)
    (hd : delaySamples fsG dist = (d : ℤ)) (hdL : d < f0.L) :
    delaySamples fsG dist = ⌈dist / SPEED_OF_SOUND * fsG⌉ ∧
    (∀ n, fbOut f0 fsG dist impulse n = (if n = d then 1 / dist else 0)) ∧
    (∀ n, (fbTrace f0 fsG dist impulse n).get fsG (impulse n) dist
      = .ok (fbOut f0 fsG dist impulse n, fbTrace f0 fsG dist impulse (n+1))) := by
  obtain ⟨hbuf, hix, -⟩ := feedback_init_ok maxd fs f0 hf
  have hL : 0 < f0.L := Nat.lt_of_le_of_lt (Nat.zero_le d) hdL
  refine ⟨rfl, fb_output f0 fsG dist d hL hbuf hix hd hdL, ?_⟩
  intro n
  obtain ⟨ihL, ihix, ihlen, -⟩ := fb_invariant f0 fsG dist hL hbuf hix n
  have hget := feedback_get_ok (fbTrace f0 fsG dist impulse n) fsG (impulse n) dist
    (by rw [ihix, ihlen]; exact Nat.mod_lt _ hL) (ihlen.trans ihL.symm)
    (by rw [ihL]; exact hL)
  rw [hget]
  rfl

/-- Witness for C6's amended claim at the counterexample instance:
distance 21/10 m, global rate 343 Hz, delay 3 samples within L = 4. -/
theorem delay_impulse_response_w :
    feedback.init 4 343 = .ok fW6 ∧
    fbOut fW6 343 (21/10) impulse 3 = 10/21 ∧
    fbOut fW6 343 (21/10) impulse 2 = 0 := by
  have h := delay_impulse_response 4 343 343 (21/10) fW6 3 feedback_init_eval6
    (by norm_num) (by rw [ds_eval6]; norm_num) (by norm_num [fW6])
  refine ⟨feedback_init_eval6, ?_, ?_⟩
  · have h2 := h.2.1 3
    rw [if_pos rfl] at h2
    rw [h2]
    norm_num
  · have h2 := h.2.1 2
    rw [if_neg (by norm_num)] at h2
    exact h2
